import Mathlib

/-!
Shallow embedding of the blockstore cache core (package `blockstore`):
the partitioned write path (`writeToPart`, `ensurePart`, `writeAt`) and the
registry lifecycle operations (`pinCacheEntry`, `unpinCacheEntry`,
`tryDeleteCacheEntry`, `withLockExists`, `getFileFromCache`).

Modelling decisions, mapped to the Go source:
* Bytes are `Nat`, byte buffers are `List Nat`.  `int64` offsets and sizes
  are `Nat`: every claim restricts to non-negative offsets, where Go's
  `/` and `%` agree with `Nat.div` / `Nat.mod`.
* `PinCount` is `Int`: the Go field is a signed `int` and can go negative.
* The Go map `Cache map[cacheKey]*CacheEntry` is a function
  `cacheKey → Option CacheEntry`; in-place mutation through the entry
  pointer becomes an explicit write-back of the updated entry.
* A Go slice `make([]byte, 0, PartDataSize)` has zero-initialised backing
  storage, `dce.Data = dce.Data[:n]` exposes bytes of that storage, and
  `writeToPart` is the only writer and always extends the length to cover
  the bytes it copies, so every exposed-but-unwritten byte is `0`.  The
  embedding therefore models the reslice as padding with `0`.
* Panics (nil `FileEntry` dereference in `writeAt`, `% 0` when a circular
  file has `MaxSize < PartDataSize`) are modelled as `Option.none`; the
  Go `for len(data) > 0` loop is fuel recursion with fuel `len(data)`,
  which suffices because every iteration consumes at least one byte.
* The mutex, the atomic-bool wrappers and `FlushTime` are concurrency /
  timing apparatus; the dirty *values* are kept as plain `Bool` fields.
* `BlockFile` is not defined in the sources under verification (only its
  use sites are); it is modelled from the spec, see its doc comment.
-/

namespace Blockstore

/-- Positional list lookup, `l[i]` as an `Option` (the embedding's reading
of Go slice indexing / out-of-range access). -/
def getAt {α : Type} : List α → Nat → Option α
  | [], _ => none
  | x :: _, 0 => some x
  | _ :: xs, n + 1 => getAt xs n

/-- Modelled from the spec: the file-descriptor options structure, exposing
`Circular : bool` and `MaxSize : integer` as required by `writeAt`'s
partition-wrap arithmetic (spec section 6). -/
structure FileOpts where
  Circular : Bool
  MaxSize : Nat
deriving DecidableEq

/-- Modelled from the spec: the file-descriptor abstraction (`BlockFile` is
not among the sources under verification).  The spec requires an options
structure and a `DeepCopy()` producing an independent value; the interior
mutable state that `DeepCopy` must unshare is modelled as one heap address
(`Meta`) into an explicit heap of cells. -/
structure BlockFile where
  Opts : FileOpts
  Meta : Nat
deriving DecidableEq

/-- One fixed-size partition of file bytes plus its dirty flag
(Go `DataCacheEntry`; the `*atomic.Bool` is modelled by its value). -/
structure DataCacheEntry where
  Dirty : Bool
  PartIdx : Nat
  Data : List Nat
deriving DecidableEq

/-- A file's metadata snapshot plus its dirty flag (Go `FileCacheEntry`). -/
structure FileCacheEntry where
  Dirty : Bool
  File : BlockFile
deriving DecidableEq

/-- One file's full cache state (Go `CacheEntry`).  `nil` pointers become
`Option`; the `[]*DataCacheEntry` slice keeps its `nil` slots. -/
structure CacheEntry where
  BlockId : String
  Name : String
  Version : Nat
  PinCount : Int
  Deleted : Bool
  FileEntry : Option FileCacheEntry
  DataEntries : List (Option DataCacheEntry)
deriving DecidableEq

/-- Go `cacheKey`. -/
structure cacheKey where
  BlockId : String
  Name : String
deriving DecidableEq

/-- Partition slot `partIdx` of a `DataEntries` slice: `none` past the end
of the slice or at a `nil` slot. -/
def slotPart (parts : List (Option DataCacheEntry)) (partIdx : Nat) :
    Option DataCacheEntry :=
  (getAt parts partIdx).getD none

/-- Go `(dce *DataCacheEntry) writeToPart(offset, data)`:
`leftInPart := PartDataSize - offset`, clip `toWrite` to it, extend the
logical length to `offset+toWrite` when shorter (exposing zeroed backing
bytes), copy the first `toWrite` bytes of `data` to `[offset, offset+toWrite)`,
set the dirty flag, return `toWrite`.  Total: the Go function cannot fail
for the in-range offsets its caller produces. -/
def DataCacheEntry.writeToPart (psz : Nat) (dce : DataCacheEntry)
    (offset : Nat) (data : List Nat) : DataCacheEntry × Nat :=
  let leftInPart := psz - offset
  let toWrite := min data.length leftInPart
  let extended :=
    if dce.Data.length < offset + toWrite then
      dce.Data ++ List.replicate (offset + toWrite - dce.Data.length) 0
    else dce.Data
  let newData :=
    extended.take offset ++ data.take toWrite ++ extended.drop (offset + toWrite)
  (⟨true, dce.PartIdx, newData⟩, toWrite)

/-- Go `(e *CacheEntry) ensurePart(partIdx, create)` acting on the
`DataEntries` slice: grow with `nil` slots until index `partIdx` exists,
then if `create` and the slot is `nil`, install a fresh zero-length
partition (capacity `PartDataSize`, hence the unused size parameter). -/
def ensurePartList (psz : Nat) (l : List (Option DataCacheEntry))
    (partIdx : Nat) (create : Bool) : List (Option DataCacheEntry) :=
  let grown := l ++ List.replicate (partIdx + 1 - l.length) none
  if create then
    match slotPart grown partIdx with
    | none => grown.set partIdx (some ⟨false, partIdx, []⟩)
    | some _ => grown
  else grown

/-- The per-iteration partition index of `writeAt`: `offset / PartDataSize`,
wrapped modulo `MaxSize / PartDataSize` for circular files.  Go panics on
`% 0` when `MaxSize / PartDataSize = 0`; that panic is `none`. -/
def circIdx (psz : Nat) (opts : FileOpts) (rawIdx : Nat) : Option Nat :=
  if opts.Circular then
    if opts.MaxSize / psz = 0 then none
    else some (rawIdx % (opts.MaxSize / psz))
  else some rawIdx

/-- The `for len(data) > 0` loop of Go `writeAt`, with fuel.  Each
iteration: compute the (possibly wrapped) partition index and the
partition-internal offset `offset % PartDataSize`, ensure the partition
exists, delegate to `writeToPart`, and advance `offset` and `data` by the
count written. -/
def writeAtLoop (psz : Nat) (opts : FileOpts) :
    Nat → List (Option DataCacheEntry) → Nat → List Nat →
    Option (List (Option DataCacheEntry))
  | _, parts, _, [] => some parts
  | 0, _, _, _ :: _ => none
  | fuel + 1, parts, offset, b :: rest =>
    match circIdx psz opts (offset / psz) with
    | none => none
    | some partIdx =>
      let parts2 := ensurePartList psz parts partIdx true
      match slotPart parts2 partIdx with
      | none => none
      | some dce =>
        let res := dce.writeToPart psz (offset % psz) (b :: rest)
        writeAtLoop psz opts fuel (parts2.set partIdx (some res.1))
          (offset + res.2) (List.drop res.2 (b :: rest))

/-- Go `(entry *CacheEntry) writeAt(offset, data)`.  The loop body reads
`entry.FileEntry.File.Opts` on every iteration, so with `data` non-empty
and no `FileEntry` the Go code dereferences nil: `none`.  Fuel
`data.length` is exact: every iteration writes at least one byte. -/
def CacheEntry.writeAt (psz : Nat) (entry : CacheEntry) (offset : Nat)
    (data : List Nat) : Option CacheEntry :=
  match data, entry.FileEntry with
  | [], _ => some entry
  | _ :: _, none => none
  | b :: rest, some fe =>
    (writeAtLoop psz fe.File.Opts (b :: rest).length entry.DataEntries offset
        (b :: rest)).map
      (fun parts => { entry with DataEntries := parts })

/-- Go `BlockStore` (mutex and flush interval are concurrency/timing
apparatus and carry no state the claims mention). -/
structure BlockStore where
  Cache : cacheKey → Option CacheEntry

/-- A store with an empty registry. -/
def emptyStore : BlockStore := ⟨fun _ => none⟩

/-- Go `pinCacheEntry`: look up, create-and-register a zero-value entry if
absent, then `entry.PinCount++`. -/
def BlockStore.pinCacheEntry (s : BlockStore) (blockId name : String) :
    BlockStore :=
  let key : cacheKey := ⟨blockId, name⟩
  let entry := (s.Cache key).getD ⟨blockId, name, 0, 0, false, none, []⟩
  ⟨fun k' => if k' = key then some { entry with PinCount := entry.PinCount + 1 }
             else s.Cache k'⟩

/-- Go `unpinCacheEntry`: no-op when absent (`// this is not good`),
otherwise `entry.PinCount--` unconditionally. -/
def BlockStore.unpinCacheEntry (s : BlockStore) (blockId name : String) :
    BlockStore :=
  match s.Cache ⟨blockId, name⟩ with
  | none => s
  | some entry =>
    ⟨fun k' => if k' = ⟨blockId, name⟩ then
                 some { entry with PinCount := entry.PinCount - 1 }
               else s.Cache k'⟩

/-- Go `tryDeleteCacheEntry`: no-op when absent or when `PinCount > 0`,
otherwise delete the key from the registry. -/
def BlockStore.tryDeleteCacheEntry (s : BlockStore) (blockId name : String) :
    BlockStore :=
  match s.Cache ⟨blockId, name⟩ with
  | none => s
  | some entry =>
    if 0 < entry.PinCount then s
    else ⟨fun k' => if k' = ⟨blockId, name⟩ then none else s.Cache k'⟩

/-- The distinguished lookup failure of `withLockExists`
(`fmt.Errorf("file not found")`), kept apart from whatever error the
caller-supplied function returns. -/
inductive WLError (ε : Type) where
  | fileNotFound
  | fnError (e : ε)
deriving DecidableEq

/-- Go `withLockExists`: fail with "file not found" when the key is
unregistered, the entry is tombstoned, or it has no `FileEntry`; otherwise
run `f` under the lock.  `f` mutates the entry through its pointer and
returns an optional error, so it is modelled as
`CacheEntry → CacheEntry × Option ε` and its entry update is written back. -/
def BlockStore.withLockExists {ε : Type} (s : BlockStore)
    (blockId name : String) (f : CacheEntry → CacheEntry × Option ε) :
    BlockStore × Option (WLError ε) :=
  match s.Cache ⟨blockId, name⟩ with
  | none => (s, some WLError.fileNotFound)
  | some entry =>
    if entry.Deleted then (s, some WLError.fileNotFound)
    else
      match entry.FileEntry with
      | none => (s, some WLError.fileNotFound)
      | some _ =>
        let res := f entry
        (⟨fun k' => if k' = ⟨blockId, name⟩ then some res.1 else s.Cache k'⟩,
         res.2.map WLError.fnError)

/-- Heap of interior-metadata cells backing `BlockFile.Meta`, used to state
the aliasing-freedom of `DeepCopy`. -/
def heapAlloc (h : List (List Nat)) (v : List Nat) : List (List Nat) × Nat :=
  (h ++ [v], h.length)

/-- Read a heap cell (out-of-range reads as the empty cell). -/
def heapRead (h : List (List Nat)) (a : Nat) : List Nat :=
  (getAt h a).getD []

/-- Overwrite a heap cell in place: the model of mutating the cached
descriptor's interior state after a copy-out. -/
def heapWrite (h : List (List Nat)) (a : Nat) (v : List Nat) :
    List (List Nat) :=
  h.set a v

/-- Modelled from the spec: `DeepCopy()` "producing an independent value"
(spec section 6) — copy the interior cell into a freshly allocated address,
so the copy shares no mutable state with the source. -/
def BlockFile.DeepCopy (h : List (List Nat)) (f : BlockFile) :
    List (List Nat) × BlockFile :=
  let res := heapAlloc h (heapRead h f.Meta)
  (res.1, ⟨f.Opts, res.2⟩)

/-- Go `getFileFromCache`: `(nil, false)` when unknown, `(nil, true)` when
tombstoned, `(nil, false)` when no `FileEntry` yet, otherwise a deep copy
of the live descriptor and `true`. -/
def BlockStore.getFileFromCache (s : BlockStore) (h : List (List Nat))
    (blockId name : String) : List (List Nat) × Option BlockFile × Bool :=
  match s.Cache ⟨blockId, name⟩ with
  | none => (h, none, false)
  | some entry =>
    if entry.Deleted then (h, none, true)
    else
      match entry.FileEntry with
      | none => (h, none, false)
      | some fe =>
        let res := fe.File.DeepCopy h
        (res.1, some res.2, true)

/-- Reading one byte of the partitioned representation: partition `p`,
partition-internal index `j`. -/
def getSlot (parts : List (Option DataCacheEntry)) (p j : Nat) : Option Nat :=
  match slotPart parts p with
  | none => none
  | some dce => getAt dce.Data j

/-- The partition index one loop iteration of `writeAt` targets for a
logical offset `o`: `o / PartDataSize`, wrapped for circular files. -/
def slotIdx (psz : Nat) (opts : FileOpts) (o : Nat) : Nat :=
  if opts.Circular then (o / psz) % (opts.MaxSize / psz) else o / psz

/-- The `(partition, count-written)` result of one loop iteration of
`writeAt` on state `(parts, offset, data)`. -/
def stepRes (psz : Nat) (opts : FileOpts)
    (parts : List (Option DataCacheEntry)) (offset : Nat) (data : List Nat) :
    DataCacheEntry × Nat :=
  ((slotPart parts (slotIdx psz opts offset)).getD
      ⟨false, slotIdx psz opts offset, []⟩).writeToPart psz (offset % psz) data

/-- A non-circular file-cache entry used in the concrete scenarios
(`Circular = false`). -/
def feNC : FileCacheEntry := ⟨false, ⟨⟨false, 0⟩, 0⟩⟩

/-- A freshly created non-circular cache entry: file attached, no data
partitions yet. -/
def entryNC : CacheEntry := ⟨"blk", "file", 0, 0, false, some feNC, []⟩

/-- A circular file-cache entry with `MaxSize = 8`. -/
def feCW : FileCacheEntry := ⟨false, ⟨⟨true, 8⟩, 0⟩⟩

/-- A freshly created circular cache entry (`MaxSize = 8`). -/
def entryCW : CacheEntry := ⟨"blk", "file", 0, 0, false, some feCW, []⟩

/-- The cache entry shape produced by `pinCacheEntry` on an unknown key:
pinned once, no `FileEntry` attached. -/
def pinOnlyEntry : CacheEntry := ⟨"blk", "file", 0, 1, false, none, []⟩

/-- A file-cache entry whose descriptor metadata lives at heap address
`0`. -/
def popFe : FileCacheEntry := ⟨false, ⟨⟨false, 0⟩, 0⟩⟩

/-- A populated cache entry (file attached, not deleted) carrying
`popFe`. -/
def popEntry : CacheEntry := ⟨"b", "n", 0, 0, false, some popFe, []⟩

/-- A write-to-part scenario partition holding two bytes. -/
def dceW : DataCacheEntry := ⟨false, 0, [9, 9]⟩

/-- A one-entry store holding `popEntry` under key `("b", "n")`. -/
def popStore : BlockStore :=
  ⟨fun k' => if k' = (⟨"b", "n"⟩ : cacheKey) then some popEntry else none⟩

/-! ### Positional-lookup lemmas -/

theorem getAt_eq_none {α : Type} {l : List α} {i : Nat} (h : l.length ≤ i) :
    getAt l i = none := by
  induction l generalizing i with
  | nil => cases i <;> rfl
  | cons x xs ih =>
    cases i with
    | zero => simp at h
    | succ n => exact ih (by simpa using h)

theorem getAt_some_lt {α : Type} {l : List α} {i : Nat} {v : α}
    (h : getAt l i = some v) : i < l.length := by
  by_contra hc
  rw [getAt_eq_none (by omega)] at h
  exact Option.noConfusion h

theorem getAt_append {α : Type} (l l' : List α) (i : Nat) :
    getAt (l ++ l') i = if i < l.length then getAt l i else getAt l' (i - l.length) := by
  induction l generalizing i with
  | nil => simp [getAt]
  | cons x xs ih =>
    cases i with
    | zero => simp [getAt]
    | succ n =>
      show getAt (xs ++ l') n =
        if n + 1 < xs.length + 1 then getAt xs n else getAt l' (n + 1 - (xs.length + 1))
      rw [ih]
      by_cases h : n < xs.length
      · rw [if_pos h, if_pos (by omega)]
      · rw [if_neg h, if_neg (by omega)]
        congr 1
        omega

theorem getAt_replicate {α : Type} (n i : Nat) (x : α) :
    getAt (List.replicate n x) i = if i < n then some x else none := by
  induction n generalizing i with
  | zero => simp [List.replicate, getAt]
  | succ m ih =>
    cases i with
    | zero => simp [List.replicate, getAt]
    | succ j =>
      show getAt (List.replicate m x) j = if j + 1 < m + 1 then some x else none
      rw [ih]
      by_cases h : j < m
      · rw [if_pos h, if_pos (by omega)]
      · rw [if_neg h, if_neg (by omega)]

theorem getAt_take {α : Type} (l : List α) (n i : Nat) :
    getAt (l.take n) i = if i < n then getAt l i else none := by
  induction l generalizing n i with
  | nil => simp [getAt]
  | cons x xs ih =>
    cases n with
    | zero => simp [getAt]
    | succ m =>
      cases i with
      | zero => simp [getAt]
      | succ j =>
        show getAt (xs.take m) j = if j + 1 < m + 1 then getAt xs j else none
        rw [ih]
        by_cases h : j < m
        · rw [if_pos h, if_pos (by omega)]
        · rw [if_neg h, if_neg (by omega)]

theorem getAt_drop {α : Type} (l : List α) (n i : Nat) :
    getAt (l.drop n) i = getAt l (n + i) := by
  induction l generalizing n with
  | nil => simp [getAt]
  | cons x xs ih =>
    cases n with
    | zero =>
      rw [Nat.zero_add]
      rfl
    | succ m =>
      show getAt (xs.drop m) i = getAt (x :: xs) (m + 1 + i)
      rw [ih]
      have : m + 1 + i = (m + i) + 1 := by omega
      rw [this]
      rfl

theorem getAt_set_self {α : Type} {l : List α} {i : Nat} (h : i < l.length) (x : α) :
    getAt (l.set i x) i = some x := by
  induction l generalizing i with
  | nil => simp at h
  | cons y ys ih =>
    cases i with
    | zero => rfl
    | succ n => exact ih (by simpa using h)

theorem getAt_set_ne {α : Type} {l : List α} {i j : Nat} (h : i ≠ j) (x : α) :
    getAt (l.set i x) j = getAt l j := by
  induction l generalizing i j with
  | nil => rfl
  | cons y ys ih =>
    cases i with
    | zero =>
      cases j with
      | zero => exact absurd rfl h
      | succ m => rfl
    | succ n =>
      cases j with
      | zero => rfl
      | succ m => exact @ih n m (by omega)

/-! ### `writeToPart` characterization -/

theorem writeToPart_snd (psz : Nat) (dce : DataCacheEntry) (offset : Nat)
    (data : List Nat) :
    (dce.writeToPart psz offset data).2 = min data.length (psz - offset) := rfl

theorem writeToPart_Dirty (psz : Nat) (dce : DataCacheEntry) (offset : Nat)
    (data : List Nat) : (dce.writeToPart psz offset data).1.Dirty = true := rfl

theorem writeToPart_PartIdx (psz : Nat) (dce : DataCacheEntry) (offset : Nat)
    (data : List Nat) :
    (dce.writeToPart psz offset data).1.PartIdx = dce.PartIdx := rfl

/-- The extended buffer inside `writeToPart`, on plain lists: old bytes
below the old length, zeros up to `off + tw`, nothing beyond. -/
theorem extendAt (old : List Nat) (off tw j : Nat) :
    getAt (if old.length < off + tw then
             old ++ List.replicate (off + tw - old.length) 0
           else old) j =
      if j < old.length then getAt old j
      else if j < off + tw then some 0
      else none := by
  by_cases hext : old.length < off + tw
  · rw [if_pos hext, getAt_append, getAt_replicate]
    by_cases h1 : j < old.length
    · rw [if_pos h1, if_pos h1]
    · rw [if_neg h1, if_neg h1]
      by_cases h2 : j < off + tw
      · rw [if_pos (by omega : j - old.length < off + tw - old.length), if_pos h2]
      · rw [if_neg (by omega : ¬ j - old.length < off + tw - old.length), if_neg h2]
  · rw [if_neg hext]
    by_cases h1 : j < old.length
    · rw [if_pos h1]
    · rw [if_neg h1, getAt_eq_none (by omega), if_neg (by omega)]

theorem extendLen (old : List Nat) (off tw : Nat) :
    (if old.length < off + tw then
       old ++ List.replicate (off + tw - old.length) 0
     else old).length = max old.length (off + tw) := by
  by_cases hext : old.length < off + tw
  · rw [if_pos hext]
    simp only [List.length_append, List.length_replicate]
    omega
  · rw [if_neg hext]
    omega

/-- Byte-level description of the copy-into-extended-buffer expression of
`writeToPart`, on plain lists. -/
theorem overlayAt (old data : List Nat) (off tw : Nat) (htw : tw ≤ data.length)
    (j : Nat) :
    getAt ((if old.length < off + tw then
              old ++ List.replicate (off + tw - old.length) 0
            else old).take off ++ data.take tw ++
           (if old.length < off + tw then
              old ++ List.replicate (off + tw - old.length) 0
            else old).drop (off + tw)) j =
      if off ≤ j ∧ j < off + tw then getAt data (j - off)
      else if j < old.length then getAt old j
      else if j < off then some 0
      else none := by
  have hElen := extendLen old off tw
  have hEat := extendAt old off tw
  have htake : ((if old.length < off + tw then
      old ++ List.replicate (off + tw - old.length) 0 else old).take off).length
      = off := by
    rw [List.length_take, hElen]
    omega
  have hdtake : (data.take tw).length = tw := by
    rw [List.length_take]
    omega
  rw [getAt_append, getAt_append, List.length_append, htake, hdtake]
  by_cases h1 : j < off
  · have c1 : j < off + tw := by omega
    have c2 : ¬ (off ≤ j ∧ j < off + tw) := by omega
    rw [if_pos c1, if_pos h1, if_neg c2, getAt_take, if_pos h1, hEat]
    by_cases h2 : j < old.length
    · rw [if_pos h2, if_pos h2]
    · rw [if_neg h2, if_pos c1, if_neg h2, if_pos h1]
  · by_cases h3 : j - off < tw
    · have c1 : j < off + tw := by omega
      have c3 : off ≤ j ∧ j < off + tw := ⟨by omega, c1⟩
      rw [if_pos c1, if_neg h1, if_pos c3, getAt_take, if_pos h3]
    · have c1 : ¬ j < off + tw := by omega
      have c2 : ¬ (off ≤ j ∧ j < off + tw) := by omega
      have harith : off + tw + (j - (off + tw)) = j := by omega
      rw [if_neg c1, if_neg c2, getAt_drop, harith, hEat]
      by_cases h2 : j < old.length
      · rw [if_pos h2, if_pos h2]
      · rw [if_neg h2, if_neg c1, if_neg h2, if_neg h1]

/-- Master byte-level description of `writeToPart`: inside the written
window the first bytes of `data` land shifted by `offset`; below it old
bytes survive and freshly exposed backing bytes read `0`; beyond it old
bytes survive and nothing new appears. -/
theorem writeToPart_getAt (psz : Nat) (dce : DataCacheEntry) (offset : Nat)
    (data : List Nat) (j : Nat) :
    getAt (dce.writeToPart psz offset data).1.Data j =
      if offset ≤ j ∧ j < offset + min data.length (psz - offset) then
        getAt data (j - offset)
      else if j < dce.Data.length then getAt dce.Data j
      else if j < offset then some 0
      else none :=
  overlayAt dce.Data data offset (min data.length (psz - offset))
    (Nat.min_le_left _ _) j

theorem writeToPart_length (psz : Nat) (dce : DataCacheEntry) (offset : Nat)
    (data : List Nat) :
    (dce.writeToPart psz offset data).1.Data.length =
      max dce.Data.length (offset + min data.length (psz - offset)) := by
  show ((if dce.Data.length < offset + min data.length (psz - offset) then
           dce.Data ++
             List.replicate (offset + min data.length (psz - offset) -
               dce.Data.length) 0
         else dce.Data).take offset ++
        data.take (min data.length (psz - offset)) ++
        (if dce.Data.length < offset + min data.length (psz - offset) then
           dce.Data ++
             List.replicate (offset + min data.length (psz - offset) -
               dce.Data.length) 0
         else dce.Data).drop
          (offset + min data.length (psz - offset))).length = _
  have hElen := extendLen dce.Data offset (min data.length (psz - offset))
  simp only [List.length_append, List.length_take, List.length_drop, hElen]
  have := Nat.min_le_left data.length (psz - offset)
  omega

/-! ### `ensurePartList` and partition-slot lemmas -/

theorem slotPart_grown (l : List (Option DataCacheEntry)) (i j : Nat) :
    slotPart (l ++ List.replicate (i + 1 - l.length) none) j = slotPart l j := by
  unfold slotPart
  rw [getAt_append, getAt_replicate]
  by_cases h1 : j < l.length
  · rw [if_pos h1]
  · rw [if_neg h1, getAt_eq_none (by omega)]
    by_cases h2 : j - l.length < i + 1 - l.length
    · rw [if_pos h2]
      rfl
    · rw [if_neg h2]

theorem slotPart_set_self {l : List (Option DataCacheEntry)} {i : Nat}
    (h : i < l.length) (x : Option DataCacheEntry) :
    slotPart (l.set i x) i = x := by
  unfold slotPart
  rw [getAt_set_self h]
  rfl

theorem slotPart_set_ne {l : List (Option DataCacheEntry)} {i j : Nat}
    (h : i ≠ j) (x : Option DataCacheEntry) :
    slotPart (l.set i x) j = slotPart l j := by
  unfold slotPart
  rw [getAt_set_ne h]

theorem ensurePartList_length (psz : Nat) (l : List (Option DataCacheEntry))
    (i : Nat) (c : Bool) :
    (ensurePartList psz l i c).length = max l.length (i + 1) := by
  have hg : (l ++ List.replicate (i + 1 - l.length) none).length =
      max l.length (i + 1) := by
    simp only [List.length_append, List.length_replicate]
    omega
  unfold ensurePartList
  cases c with
  | false => simpa using hg
  | true =>
    rw [if_pos rfl]
    cases hsp : slotPart (l ++ List.replicate (i + 1 - l.length) none) i with
    | none => simp only [hsp, List.length_set]; exact hg
    | some d => simp only [hsp]; exact hg

theorem ensurePartList_self (psz : Nat) (l : List (Option DataCacheEntry))
    (i : Nat) :
    slotPart (ensurePartList psz l i true) i =
      some ((slotPart l i).getD ⟨false, i, []⟩) := by
  have hg := slotPart_grown l i i
  have hglen : i < (l ++ List.replicate (i + 1 - l.length) none).length := by
    simp only [List.length_append, List.length_replicate]
    omega
  unfold ensurePartList
  rw [if_pos rfl]
  cases hsp : slotPart (l ++ List.replicate (i + 1 - l.length) none) i with
  | none =>
    simp only [hsp]
    rw [slotPart_set_self hglen]
    rw [hg] at hsp
    rw [hsp]
    rfl
  | some d =>
    simp only [hsp]
    rw [hg] at hsp
    rw [hsp]
    rfl

theorem ensurePartList_other (psz : Nat) (l : List (Option DataCacheEntry))
    (i : Nat) (c : Bool) (j : Nat) (h : i ≠ j) :
    slotPart (ensurePartList psz l i c) j = slotPart l j := by
  have hg := slotPart_grown l i j
  unfold ensurePartList
  cases c with
  | false => simpa using hg
  | true =>
    rw [if_pos rfl]
    cases hsp : slotPart (l ++ List.replicate (i + 1 - l.length) none) i with
    | none =>
      simp only [hsp]
      rw [slotPart_set_ne h, hg]
    | some d =>
      simp only [hsp]
      exact hg

/-! ### Offset arithmetic for the write loop -/

/-- Offsets within the clip window of one iteration stay in the same
partition, at consecutive internal offsets. -/
theorem slot_shift (psz offset t : Nat) (hpsz : 0 < psz)
    (ht : t < psz - offset % psz) :
    (offset + t) / psz = offset / psz ∧
      (offset + t) % psz = offset % psz + t := by
  have hmod := Nat.mod_lt offset hpsz
  have hdm := Nat.div_add_mod offset psz
  have hlt : offset % psz + t < psz := by omega
  have hoff : offset + t = psz * (offset / psz) + (offset % psz + t) := by omega
  constructor
  · rw [hoff, Nat.mul_add_div hpsz, Nat.div_eq_of_lt hlt]
    omega
  · rw [hoff, Nat.mul_add_mod, Nat.mod_eq_of_lt hlt]

/-! ### The write loop, one step at a time -/

theorem circIdx_eq (psz : Nat) (opts : FileOpts)
    (hc : opts.Circular = true → 0 < opts.MaxSize / psz) (r : Nat) :
    circIdx psz opts r =
      some (if opts.Circular then r % (opts.MaxSize / psz) else r) := by
  unfold circIdx
  cases hcir : opts.Circular with
  | false => simp
  | true =>
    have h0 := hc hcir
    simp [Nat.pos_iff_ne_zero.mp h0]

theorem writeAtLoop_nil (psz : Nat) (opts : FileOpts) (fuel : Nat)
    (parts : List (Option DataCacheEntry)) (offset : Nat) :
    writeAtLoop psz opts fuel parts offset [] = some parts := by
  cases fuel <;> rfl

theorem writeAtLoop_zero_cons (psz : Nat) (opts : FileOpts)
    (parts : List (Option DataCacheEntry)) (offset b : Nat) (rest : List Nat) :
    writeAtLoop psz opts 0 parts offset (b :: rest) = none := rfl

/-- Unfolding one iteration of the write loop, with the wrap-index defined
and the ensured partition resolved. -/
theorem writeAtLoop_step (psz : Nat) (opts : FileOpts)
    (hc : opts.Circular = true → 0 < opts.MaxSize / psz)
    (fuel : Nat) (parts : List (Option DataCacheEntry)) (offset b : Nat)
    (rest : List Nat) :
    writeAtLoop psz opts (fuel + 1) parts offset (b :: rest) =
      writeAtLoop psz opts fuel
        ((ensurePartList psz parts (slotIdx psz opts offset) true).set
          (slotIdx psz opts offset)
          (some (stepRes psz opts parts offset (b :: rest)).1))
        (offset + (stepRes psz opts parts offset (b :: rest)).2)
        (List.drop (stepRes psz opts parts offset (b :: rest)).2 (b :: rest)) := by
  have hcx : circIdx psz opts (offset / psz) = some (slotIdx psz opts offset) := by
    rw [circIdx_eq psz opts hc]
    rfl
  have hself := ensurePartList_self psz parts (slotIdx psz opts offset)
  simp only [writeAtLoop, hcx, hself, stepRes]

theorem stepRes_snd (psz : Nat) (opts : FileOpts)
    (parts : List (Option DataCacheEntry)) (offset : Nat) (data : List Nat) :
    (stepRes psz opts parts offset data).2 =
      min data.length (psz - offset % psz) := by
  unfold stepRes
  rw [writeToPart_snd]

theorem stepRes_pos (psz : Nat) (opts : FileOpts)
    (parts : List (Option DataCacheEntry)) (offset b : Nat) (rest : List Nat)
    (hpsz : 0 < psz) :
    1 ≤ (stepRes psz opts parts offset (b :: rest)).2 := by
  rw [stepRes_snd]
  have h1 : offset % psz < psz := Nat.mod_lt offset hpsz
  simp only [List.length_cons]
  omega

theorem stepRes_le (psz : Nat) (opts : FileOpts)
    (parts : List (Option DataCacheEntry)) (offset : Nat) (data : List Nat) :
    (stepRes psz opts parts offset data).2 ≤ data.length := by
  rw [stepRes_snd]
  exact Nat.min_le_left _ _

/-- The write loop succeeds whenever the fuel covers the data (true
partition size and, for circular files, a non-zero partition count). -/
theorem writeAtLoop_total (psz : Nat) (opts : FileOpts) (hpsz : 0 < psz)
    (hc : opts.Circular = true → 0 < opts.MaxSize / psz) :
    ∀ (fuel : Nat) (parts : List (Option DataCacheEntry)) (offset : Nat)
      (data : List Nat), data.length ≤ fuel →
      ∃ parts', writeAtLoop psz opts fuel parts offset data = some parts' := by
  intro fuel
  induction fuel with
  | zero =>
    intro parts offset data hlen
    cases data with
    | nil => exact ⟨parts, rfl⟩
    | cons b rest => simp at hlen
  | succ n ih =>
    intro parts offset data hlen
    cases data with
    | nil => exact ⟨parts, writeAtLoop_nil psz opts (n + 1) parts offset⟩
    | cons b rest =>
      rw [writeAtLoop_step psz opts hc]
      apply ih
      have hpos := stepRes_pos psz opts parts offset b rest hpsz
      have hle := stepRes_le psz opts parts offset (b :: rest)
      rw [List.length_drop]
      simp only [List.length_cons] at hlen hle ⊢
      omega

theorem getAt_lt_some {α : Type} :
    ∀ (l : List α) (i : Nat), i < l.length → ∃ v, getAt l i = some v
  | [], _, h => absurd h (by simp)
  | x :: _, 0, _ => ⟨x, rfl⟩
  | _ :: xs, n + 1, h => getAt_lt_some xs n (by simpa using h)

theorem slotIdx_congr (psz : Nat) (opts : FileOpts) {o o' : Nat}
    (h : o / psz = o' / psz) : slotIdx psz opts o = slotIdx psz opts o' := by
  unfold slotIdx
  rw [h]

/-- Frame: a byte already present in some partition slot survives the
write loop whenever no iteration of the loop targets that slot. -/
theorem writeAtLoop_frame (psz : Nat) (opts : FileOpts) (hpsz : 0 < psz)
    (hc : opts.Circular = true → 0 < opts.MaxSize / psz) :
    ∀ (fuel : Nat) (parts : List (Option DataCacheEntry)) (offset : Nat)
      (data : List Nat) (parts' : List (Option DataCacheEntry)) (p j v : Nat),
      writeAtLoop psz opts fuel parts offset data = some parts' →
      getSlot parts p j = some v →
      (∀ t, t < data.length →
        ¬ (slotIdx psz opts (offset + t) = p ∧ (offset + t) % psz = j)) →
      getSlot parts' p j = some v := by
  intro fuel
  induction fuel with
  | zero =>
    intro parts offset data parts' p j v heq hv hnt
    cases data with
    | nil =>
      rw [writeAtLoop_nil] at heq
      cases heq
      exact hv
    | cons b rest =>
      rw [writeAtLoop_zero_cons] at heq
      cases heq
  | succ n ih =>
    intro parts offset data parts' p j v heq hv hnt
    cases data with
    | nil =>
      rw [writeAtLoop_nil] at heq
      cases heq
      exact hv
    | cons b rest =>
      rw [writeAtLoop_step psz opts hc] at heq
      have hsnd := stepRes_snd psz opts parts offset (b :: rest)
      refine ih _ _ _ parts' p j v heq ?_ ?_
      · by_cases hp : slotIdx psz opts offset = p
        · subst hp
          unfold getSlot at hv ⊢
          cases hd : slotPart parts (slotIdx psz opts offset) with
          | none =>
            rw [hd] at hv
            exact Option.noConfusion hv
          | some d =>
            simp only [hd] at hv
            have hjlen : j < d.Data.length := getAt_some_lt hv
            have hidxlen : slotIdx psz opts offset <
                (ensurePartList psz parts (slotIdx psz opts offset) true).length := by
              rw [ensurePartList_length]
              omega
            rw [slotPart_set_self hidxlen]
            show getAt (stepRes psz opts parts offset (b :: rest)).1.Data j = some v
            unfold stepRes
            rw [hd, Option.getD_some, writeToPart_getAt]
            have hwin : ¬ (offset % psz ≤ j ∧
                j < offset % psz + min (b :: rest).length (psz - offset % psz)) := by
              rintro ⟨hw1, hw2⟩
              have hmle : min (b :: rest).length (psz - offset % psz) ≤
                  (b :: rest).length := Nat.min_le_left _ _
              have hmle2 : min (b :: rest).length (psz - offset % psz) ≤
                  psz - offset % psz := Nat.min_le_right _ _
              have hs := slot_shift psz offset (j - offset % psz) hpsz (by omega)
              refine hnt (j - offset % psz) (by omega) ⟨slotIdx_congr psz opts hs.1, ?_⟩
              rw [hs.2]
              omega
            rw [if_neg hwin, if_pos hjlen]
            exact hv
        · unfold getSlot at hv ⊢
          rw [slotPart_set_ne hp, ensurePartList_other psz parts _ true p hp]
          exact hv
      · intro t ht hcontra
        rw [List.length_drop] at ht
        have hle := stepRes_le psz opts parts offset (b :: rest)
        have ha : offset + (stepRes psz opts parts offset (b :: rest)).2 + t =
            offset + ((stepRes psz opts parts offset (b :: rest)).2 + t) := by
          omega
        rw [ha] at hcontra
        exact hnt _ (by omega) hcontra

/-- Correctness of the write loop: byte `i` of `data` ends up in the slot
computed for logical offset `offset + i`, provided no two bytes of this
write target the same slot. -/
theorem writeAtLoop_correct (psz : Nat) (opts : FileOpts) (hpsz : 0 < psz)
    (hc : opts.Circular = true → 0 < opts.MaxSize / psz) :
    ∀ (fuel : Nat) (parts : List (Option DataCacheEntry)) (offset : Nat)
      (data : List Nat) (parts' : List (Option DataCacheEntry)),
      writeAtLoop psz opts fuel parts offset data = some parts' →
      (∀ t u, t < u → u < data.length →
        ¬ (slotIdx psz opts (offset + t) = slotIdx psz opts (offset + u) ∧
           (offset + t) % psz = (offset + u) % psz)) →
      ∀ i, i < data.length →
        getSlot parts' (slotIdx psz opts (offset + i)) ((offset + i) % psz) =
          getAt data i := by
  intro fuel
  induction fuel with
  | zero =>
    intro parts offset data parts' heq hnd i hi
    cases data with
    | nil => simp at hi
    | cons b rest =>
      rw [writeAtLoop_zero_cons] at heq
      cases heq
  | succ n ih =>
    intro parts offset data parts' heq hnd i hi
    cases data with
    | nil => simp at hi
    | cons b rest =>
      rw [writeAtLoop_step psz opts hc] at heq
      have hsnd := stepRes_snd psz opts parts offset (b :: rest)
      have hnw_le := stepRes_le psz opts parts offset (b :: rest)
      have hmle2 : min (b :: rest).length (psz - offset % psz) ≤
          psz - offset % psz := Nat.min_le_right _ _
      by_cases hcase : i < (stepRes psz opts parts offset (b :: rest)).2
      · have hshift := slot_shift psz offset i hpsz (by omega)
        obtain ⟨bv, hbv⟩ := getAt_lt_some (b :: rest) i hi
        have hval : getSlot
            ((ensurePartList psz parts (slotIdx psz opts offset) true).set
              (slotIdx psz opts offset)
              (some (stepRes psz opts parts offset (b :: rest)).1))
            (slotIdx psz opts offset) (offset % psz + i) = some bv := by
          unfold getSlot
          have hidxlen : slotIdx psz opts offset <
              (ensurePartList psz parts (slotIdx psz opts offset) true).length := by
            rw [ensurePartList_length]
            omega
          rw [slotPart_set_self hidxlen]
          show getAt (stepRes psz opts parts offset (b :: rest)).1.Data
              (offset % psz + i) = some bv
          unfold stepRes
          rw [writeToPart_getAt]
          rw [if_pos ⟨by omega, by rw [hsnd] at hcase; omega⟩]
          have harith : offset % psz + i - offset % psz = i := by omega
          rw [harith]
          exact hbv
        have hnt : ∀ t, t < (List.drop (stepRes psz opts parts offset
            (b :: rest)).2 (b :: rest)).length →
            ¬ (slotIdx psz opts (offset +
                  (stepRes psz opts parts offset (b :: rest)).2 + t) =
                slotIdx psz opts offset ∧
               (offset + (stepRes psz opts parts offset (b :: rest)).2 + t) %
                  psz = offset % psz + i) := by
          intro t ht hcontra
          rw [List.length_drop] at ht
          have ha : offset + (stepRes psz opts parts offset (b :: rest)).2 + t =
              offset + ((stepRes psz opts parts offset (b :: rest)).2 + t) := by
            omega
          rw [ha] at hcontra
          refine hnd i ((stepRes psz opts parts offset (b :: rest)).2 + t)
            (by omega) (by omega) ⟨?_, ?_⟩
          · rw [slotIdx_congr psz opts hshift.1, hcontra.1]
          · rw [hshift.2, hcontra.2]
        have hfr := writeAtLoop_frame psz opts hpsz hc n _ _ _ parts'
          (slotIdx psz opts offset) (offset % psz + i) bv heq hval hnt
        rw [slotIdx_congr psz opts hshift.1, hshift.2, hfr, hbv]
      · have hnd2 : ∀ t u, t < u →
            u < (List.drop (stepRes psz opts parts offset (b :: rest)).2
              (b :: rest)).length →
            ¬ (slotIdx psz opts (offset +
                  (stepRes psz opts parts offset (b :: rest)).2 + t) =
                slotIdx psz opts (offset +
                  (stepRes psz opts parts offset (b :: rest)).2 + u) ∧
               (offset + (stepRes psz opts parts offset (b :: rest)).2 + t) %
                  psz =
                (offset + (stepRes psz opts parts offset (b :: rest)).2 + u) %
                  psz) := by
          intro t u htu hu hcontra
          rw [List.length_drop] at hu
          have ha : offset + (stepRes psz opts parts offset (b :: rest)).2 + t =
              offset + ((stepRes psz opts parts offset (b :: rest)).2 + t) := by
            omega
          have hb : offset + (stepRes psz opts parts offset (b :: rest)).2 + u =
              offset + ((stepRes psz opts parts offset (b :: rest)).2 + u) := by
            omega
          rw [ha, hb] at hcontra
          exact hnd _ _ (by omega) (by omega) hcontra
        have hrec := ih _ _ _ parts' heq hnd2
          (i - (stepRes psz opts parts offset (b :: rest)).2)
          (by rw [List.length_drop]; omega)
        rw [getAt_drop] at hrec
        have h2 : (stepRes psz opts parts offset (b :: rest)).2 +
            (i - (stepRes psz opts parts offset (b :: rest)).2) = i := by
          omega
        rw [h2] at hrec
        have h3 : offset + (stepRes psz opts parts offset (b :: rest)).2 +
            (i - (stepRes psz opts parts offset (b :: rest)).2) = offset + i := by
          omega
        rw [h3] at hrec
        exact hrec

/-! ### `writeAt` unfolding and slot-injectivity lemmas -/

theorem writeAt_nil_eq (psz : Nat) (entry : CacheEntry) (offset : Nat) :
    entry.writeAt psz offset [] = some entry := rfl

theorem writeAt_cons_none (psz : Nat) (entry : CacheEntry) (offset b : Nat)
    (rest : List Nat) (h : entry.FileEntry = none) :
    entry.writeAt psz offset (b :: rest) = none := by
  simp only [CacheEntry.writeAt, h]

theorem writeAt_cons_some (psz : Nat) (entry : CacheEntry) (offset b : Nat)
    (rest : List Nat) (fe : FileCacheEntry) (h : entry.FileEntry = some fe) :
    entry.writeAt psz offset (b :: rest) =
      (writeAtLoop psz fe.File.Opts (b :: rest).length entry.DataEntries offset
          (b :: rest)).map
        (fun parts => { entry with DataEntries := parts }) := by
  simp only [CacheEntry.writeAt, h]

/-- Distinct logical offsets of a non-circular file always land in
distinct `(partition, internal offset)` slots. -/
theorem nodup_noncirc (psz : Nat) (opts : FileOpts)
    (hnc : opts.Circular = false) (offset len : Nat) :
    ∀ t u, t < u → u < len →
      ¬ (slotIdx psz opts (offset + t) = slotIdx psz opts (offset + u) ∧
         (offset + t) % psz = (offset + u) % psz) := by
  intro t u htu _ hcontra
  obtain ⟨h1, h2⟩ := hcontra
  unfold slotIdx at h1
  rw [hnc] at h1
  simp only [Bool.false_eq_true, if_false] at h1
  have e1 := Nat.div_add_mod (offset + t) psz
  have e2 := Nat.div_add_mod (offset + u) psz
  rw [h1, h2] at e1
  omega

/-- Distinct logical offsets of a circular file with `MaxSize = k * psz`
land in distinct wrapped slots as long as they are less than `MaxSize`
apart. -/
theorem nodup_circ (psz k : Nat) (opts : FileOpts) (hpsz : 0 < psz)
    (hcirc : opts.Circular = true) (hms : opts.MaxSize = k * psz)
    (offset len : Nat) (hlen : len ≤ k * psz) :
    ∀ t u, t < u → u < len →
      ¬ (slotIdx psz opts (offset + t) = slotIdx psz opts (offset + u) ∧
         (offset + t) % psz = (offset + u) % psz) := by
  intro t u htu hu hcontra
  obtain ⟨h1, h2⟩ := hcontra
  unfold slotIdx at h1
  rw [hcirc] at h1
  simp only [if_true] at h1
  rw [hms, Nat.mul_div_cancel _ hpsz] at h1
  have hmeq : Nat.ModEq psz (offset + t) (offset + u) := h2
  have hdvd : psz ∣ (offset + u) - (offset + t) :=
    (Nat.modEq_iff_dvd' (by omega)).mp hmeq
  have hsub : offset + u - (offset + t) = u - t := by omega
  rw [hsub] at hdvd
  obtain ⟨m, hm'⟩ := hdvd
  rcases Nat.eq_zero_or_pos m with hm0 | hmpos
  · rw [hm0, Nat.mul_zero] at hm'
    omega
  · have hmk : m < k := by
      have hlt : psz * m < k * psz := by omega
      have hlt2 : m * psz < k * psz := by
        rw [Nat.mul_comm m psz]
        exact hlt
      exact Nat.lt_of_mul_lt_mul_right hlt2
    have hdivu : (offset + u) / psz = m + (offset + t) / psz := by
      rw [show offset + u = psz * m + (offset + t) by omega]
      rw [Nat.mul_add_div hpsz]
    rw [hdivu] at h1
    have hmodk : Nat.ModEq k ((offset + t) / psz) (m + (offset + t) / psz) := h1
    have hkdvd : k ∣ m + (offset + t) / psz - (offset + t) / psz :=
      (Nat.modEq_iff_dvd' (by omega)).mp hmodk
    have hmm : m + (offset + t) / psz - (offset + t) / psz = m := by omega
    rw [hmm] at hkdvd
    exact absurd (Nat.le_of_dvd hmpos hkdvd) (by omega)

/-- Claim C1: for every non-circular file entry, every byte sequence `B`
and every offset `O`, after `writeAt(O, B)` the byte at logical offset
`O + i` — partition `(O+i) / PartDataSize`, internal offset
`(O+i) % PartDataSize` — equals `B[i]`, for all `i < len(B)`. -/
theorem writeAt_noncircular_readback (psz : Nat) (entry : CacheEntry)
    (fe : FileCacheEntry) (O : Nat) (B : List Nat)
    (hpsz : 0 < psz) (hf : entry.FileEntry = some fe)
    (hnc : fe.File.Opts.Circular = false) :
    ∃ entry', entry.writeAt psz O B = some entry' ∧
      ∀ i, i < B.length →
        getSlot entry'.DataEntries ((O + i) / psz) ((O + i) % psz) =
          getAt B i := by
  cases B with
  | nil =>
    refine ⟨entry, writeAt_nil_eq psz entry O, ?_⟩
    intro i hi
    simp at hi
  | cons b rest =>
    have hc : fe.File.Opts.Circular = true → 0 < fe.File.Opts.MaxSize / psz := by
      rw [hnc]
      intro h
      exact absurd h (by simp)
    obtain ⟨parts', hp⟩ := writeAtLoop_total psz fe.File.Opts hpsz hc
      (b :: rest).length entry.DataEntries O (b :: rest) le_rfl
    refine ⟨{ entry with DataEntries := parts' }, ?_, ?_⟩
    · rw [writeAt_cons_some psz entry O b rest fe hf, hp]
      rfl
    · intro i hi
      have hcor := writeAtLoop_correct psz fe.File.Opts hpsz hc _ _ _ _ _ hp
        (nodup_noncirc psz fe.File.Opts hnc O (b :: rest).length) i hi
      have hsi : slotIdx psz fe.File.Opts (O + i) = (O + i) / psz := by
        unfold slotIdx
        rw [hnc]
        simp
      rw [hsi] at hcor
      exact hcor

/-- Claim C2: for a circular file entry with `MaxSize = k * PartDataSize`
(`k ≥ 1`), `writeAt` sends the byte at logical offset `O + i` to partition
`((O+i) / PartDataSize) mod k` at internal offset `(O+i) % PartDataSize`
(shown for writes of at most `MaxSize` bytes, which never overwrite
themselves); in particular a write at an offset at or past `MaxSize` wraps
around and overwrites the contents of partition `0`. -/
theorem writeAt_circular_wrap (psz k : Nat) (entry : CacheEntry)
    (fe : FileCacheEntry) (O : Nat) (B : List Nat)
    (hpsz : 0 < psz) (hk : 1 ≤ k) (hf : entry.FileEntry = some fe)
    (hcirc : fe.File.Opts.Circular = true)
    (hms : fe.File.Opts.MaxSize = k * psz) (hlen : B.length ≤ k * psz) :
    ∃ entry', entry.writeAt psz O B = some entry' ∧
      (∀ i, i < B.length →
        getSlot entry'.DataEntries (((O + i) / psz) % k) ((O + i) % psz) =
          getAt B i) ∧
      (k * psz ≤ O → O + B.length ≤ k * psz + psz →
        ∀ i, i < B.length →
          getSlot entry'.DataEntries 0 ((O + i) % psz) = getAt B i) := by
  have hc : fe.File.Opts.Circular = true → 0 < fe.File.Opts.MaxSize / psz := by
    intro _
    rw [hms, Nat.mul_div_cancel _ hpsz]
    omega
  cases B with
  | nil =>
    refine ⟨entry, writeAt_nil_eq psz entry O, ?_, ?_⟩
    · intro i hi
      simp at hi
    · intro _ _ i hi
      simp at hi
  | cons b rest =>
    obtain ⟨parts', hp⟩ := writeAtLoop_total psz fe.File.Opts hpsz hc
      (b :: rest).length entry.DataEntries O (b :: rest) le_rfl
    have hmain : ∀ i, i < (b :: rest).length →
        getSlot parts' (((O + i) / psz) % k) ((O + i) % psz) =
          getAt (b :: rest) i := by
      intro i hi
      have hcor := writeAtLoop_correct psz fe.File.Opts hpsz hc _ _ _ _ _ hp
        (nodup_circ psz k fe.File.Opts hpsz hcirc hms O (b :: rest).length hlen)
        i hi
      have hsi : slotIdx psz fe.File.Opts (O + i) = ((O + i) / psz) % k := by
        unfold slotIdx
        rw [hcirc, hms, Nat.mul_div_cancel _ hpsz]
        simp
      rw [hsi] at hcor
      exact hcor
    refine ⟨{ entry with DataEntries := parts' }, ?_, hmain, ?_⟩
    · rw [writeAt_cons_some psz entry O b rest fe hf, hp]
      rfl
    · intro hO hO2 i hi
      have hdiv : (O + i) / psz = k := by
        apply Nat.div_eq_of_lt_le
        · omega
        · have : O + i < k * psz + psz := by omega
          calc O + i < k * psz + psz := this
            _ = (k + 1) * psz := by ring
      have := hmain i hi
      rw [hdiv, Nat.mod_self] at this
      exact this

/-- Witness for claim C1: a concrete multi-partition write
(`PartDataSize = 8`, offset `5`, three bytes). -/
theorem writeAt_noncircular_readback_witness :
    ∃ entry', entryNC.writeAt 8 5 [1, 2, 3] = some entry' ∧
      ∀ i, i < [1, 2, 3].length →
        getSlot entry'.DataEntries ((5 + i) / 8) ((5 + i) % 8) =
          getAt [1, 2, 3] i :=
  writeAt_noncircular_readback 8 entryNC feNC 5 [1, 2, 3] (by decide) rfl rfl

/-- Witness for claim C2: `PartDataSize = 4`, `MaxSize = 2 * 4`, a write at
offset `9 ≥ MaxSize` wrapping into partition `0`. -/
theorem writeAt_circular_wrap_witness :
    ∃ entry', entryCW.writeAt 4 9 [1, 2, 3] = some entry' ∧
      (∀ i, i < [1, 2, 3].length →
        getSlot entry'.DataEntries (((9 + i) / 4) % 2) ((9 + i) % 4) =
          getAt [1, 2, 3] i) ∧
      (2 * 4 ≤ 9 → 9 + [1, 2, 3].length ≤ 2 * 4 + 4 →
        ∀ i, i < [1, 2, 3].length →
          getSlot entry'.DataEntries 0 ((9 + i) % 4) = getAt [1, 2, 3] i) :=
  writeAt_circular_wrap 4 2 entryCW feCW 9 [1, 2, 3] (by decide) (by decide)
    rfl rfl (by decide) (by decide)

/-- Claim C3 counterexample: with `PartDataSize = 8`, after
`writeAt(5, "ABCDE")` on a fresh non-circular entry, partition 0 has
length `8`, not `10` — the write spans the partition boundary, so the
bytes at logical offsets 8 and 9 do not land in partition 0. -/
theorem writeAt_concrete_split_cex :
    ((entryNC.writeAt 8 5 [65, 66, 67, 68, 69]).bind
        (fun e => (slotPart e.DataEntries 0).map (fun d => d.Data.length))) =
      some 8 ∧ (8 : Nat) ≠ 10 := by
  decide

/-- Claim C3 (amended): with `PartDataSize = 8`, on a freshly created
non-circular entry, `writeAt(5, "ABCDE")` makes partition 0 have length 8
with bytes `[0..4]` zero and `[5..7] = "ABC"`, and partition 1 have
length 2 with bytes `"DE"` (logical offsets 8 and 9 fall in partition 1). -/
theorem writeAt_concrete_split :
    (entryNC.writeAt 8 5 [65, 66, 67, 68, 69]).map
        (fun e => e.DataEntries.map (Option.map (fun d => d.Data))) =
      some [some [0, 0, 0, 0, 0, 65, 66, 67], some [68, 69]] := by
  decide

/-- Claim C8 counterexample: `writeAt` can fail — on an entry with no
`FileEntry` (as produced by `pin` alone) and non-empty data, the Go code
dereferences a nil pointer; the embedding returns `none`. -/
theorem writeAt_fails_nil_fileentry_cex :
    pinOnlyEntry.writeAt 8 0 [0] = none := by
  decide

/-- Claim C8 (amended): for every entry with a `FileEntry` attached whose
options, if circular, satisfy `PartDataSize ≤ MaxSize`, and every offset
and byte sequence, `writeAt` terminates without failing; progress holds
because each iteration's `writeToPart`, called at `offset % PartDataSize`,
writes at least one byte of non-empty data. -/
theorem writeAt_total (psz : Nat) (entry : CacheEntry) (fe : FileCacheEntry)
    (offset : Nat) (data : List Nat) (hpsz : 0 < psz)
    (hf : entry.FileEntry = some fe)
    (hcirc : fe.File.Opts.Circular = true → psz ≤ fe.File.Opts.MaxSize) :
    (∃ entry', entry.writeAt psz offset data = some entry') ∧
      (∀ (dce : DataCacheEntry) (off b : Nat) (rest : List Nat),
        1 ≤ (dce.writeToPart psz (off % psz) (b :: rest)).2) := by
  constructor
  · cases data with
    | nil => exact ⟨entry, writeAt_nil_eq psz entry offset⟩
    | cons b rest =>
      have hc : fe.File.Opts.Circular = true → 0 < fe.File.Opts.MaxSize / psz := by
        intro h
        exact (Nat.one_le_div_iff hpsz).mpr (hcirc h)
      obtain ⟨parts', hp⟩ := writeAtLoop_total psz fe.File.Opts hpsz hc
        (b :: rest).length entry.DataEntries offset (b :: rest) le_rfl
      refine ⟨{ entry with DataEntries := parts' }, ?_⟩
      rw [writeAt_cons_some psz entry offset b rest fe hf, hp]
      rfl
  · intro dce off b rest
    rw [writeToPart_snd]
    have := Nat.mod_lt off hpsz
    simp only [List.length_cons]
    omega

/-- Witness for claim C8 (amended): a five-byte write far past the end of
a circular file succeeds. -/
theorem writeAt_total_witness :
    (∃ entry', entryCW.writeAt 4 100 [5, 6, 7, 8, 9] = some entry') ∧
      (∀ (dce : DataCacheEntry) (off b : Nat) (rest : List Nat),
        1 ≤ (dce.writeToPart 4 (off % 4) (b :: rest)).2) :=
  writeAt_total 4 entryCW feCW 100 [5, 6, 7, 8, 9] (by decide) rfl
    (fun _ => by decide)

/-- Claim C9: `writeAt` reads `entry.FileEntry.File.Opts` on every loop
iteration, so on an entry with no `FileEntry` and non-empty data it
dereferences nil (`none` in the embedding); `pin` on an unknown key
registers exactly such an entry.  Totality under `FileEntry ≠ nil` is the
separate total-write result. -/
theorem writeAt_requires_fileentry :
    (∀ (psz : Nat) (entry : CacheEntry) (offset b : Nat) (rest : List Nat),
      entry.FileEntry = none → entry.writeAt psz offset (b :: rest) = none) ∧
    (∀ (s : BlockStore) (blockId name : String),
      s.Cache ⟨blockId, name⟩ = none →
      ∃ e, (s.pinCacheEntry blockId name).Cache ⟨blockId, name⟩ = some e ∧
        e.FileEntry = none) := by
  constructor
  · intro psz entry offset b rest h
    exact writeAt_cons_none psz entry offset b rest h
  · intro s blockId name h
    refine ⟨⟨blockId, name, 0, 1, false, none, []⟩, ?_, rfl⟩
    simp [BlockStore.pinCacheEntry, h]

/-- Witness for claim C9: a pin-only entry rejects a one-byte write, and
pinning an unknown key registers a file-less entry. -/
theorem writeAt_requires_fileentry_witness :
    pinOnlyEntry.writeAt 4 3 [7] = none ∧
      ∃ e, (emptyStore.pinCacheEntry "blk" "f").Cache ⟨"blk", "f"⟩ = some e ∧
        e.FileEntry = none :=
  ⟨writeAt_requires_fileentry.1 4 pinOnlyEntry 3 7 [] rfl,
   writeAt_requires_fileentry.2 emptyStore "blk" "f" rfl⟩

/-- Claim C4: for a partition buffer no longer than `PartDataSize` and an
internal offset below `PartDataSize`, `writeToPart(offset, data)` returns
`min(len(data), PartDataSize - offset)`, writes exactly that many leading
bytes of `data` at `[offset, offset + returned)` leaving other stored
bytes unchanged, extends the buffer length to
`max(old length, offset + returned)` — never beyond `PartDataSize` — and
sets the dirty flag; being a total function, it never errors. -/
theorem writeToPart_spec (psz : Nat) (dce : DataCacheEntry) (offset : Nat)
    (data : List Nat) (hlen : dce.Data.length ≤ psz) (hoff : offset < psz) :
    (dce.writeToPart psz offset data).2 = min data.length (psz - offset) ∧
    (∀ i, i < (dce.writeToPart psz offset data).2 →
      getAt (dce.writeToPart psz offset data).1.Data (offset + i) =
        getAt data i) ∧
    (dce.writeToPart psz offset data).1.Data.length =
      max dce.Data.length (offset + (dce.writeToPart psz offset data).2) ∧
    (dce.writeToPart psz offset data).1.Data.length ≤ psz ∧
    (dce.writeToPart psz offset data).1.Dirty = true ∧
    (∀ j, j < dce.Data.length →
      (j < offset ∨ offset + (dce.writeToPart psz offset data).2 ≤ j) →
      getAt (dce.writeToPart psz offset data).1.Data j = getAt dce.Data j) := by
  have hmr := Nat.min_le_right data.length (psz - offset)
  refine ⟨writeToPart_snd psz dce offset data, ?_, ?_, ?_,
    writeToPart_Dirty psz dce offset data, ?_⟩
  · intro i hi
    rw [writeToPart_snd] at hi
    rw [writeToPart_getAt, if_pos ⟨by omega, by omega⟩,
      show offset + i - offset = i by omega]
  · rw [writeToPart_length, writeToPart_snd]
  · rw [writeToPart_length]
    omega
  · intro j hj hcase
    rw [writeToPart_snd] at hcase
    rw [writeToPart_getAt, if_neg (by omega), if_pos hj]

/-- Witness for claim C4: `PartDataSize = 8`, a two-byte buffer, a
three-byte write at internal offset `1`. -/
theorem writeToPart_spec_witness :
    (dceW.writeToPart 8 1 [5, 5, 5]).2 = min [5, 5, 5].length (8 - 1) ∧
    (∀ i, i < (dceW.writeToPart 8 1 [5, 5, 5]).2 →
      getAt (dceW.writeToPart 8 1 [5, 5, 5]).1.Data (1 + i) =
        getAt [5, 5, 5] i) ∧
    (dceW.writeToPart 8 1 [5, 5, 5]).1.Data.length =
      max dceW.Data.length (1 + (dceW.writeToPart 8 1 [5, 5, 5]).2) ∧
    (dceW.writeToPart 8 1 [5, 5, 5]).1.Data.length ≤ 8 ∧
    (dceW.writeToPart 8 1 [5, 5, 5]).1.Dirty = true ∧
    (∀ j, j < dceW.Data.length →
      (j < 1 ∨ 1 + (dceW.writeToPart 8 1 [5, 5, 5]).2 ≤ j) →
      getAt (dceW.writeToPart 8 1 [5, 5, 5]).1.Data j = getAt dceW.Data j) :=
  writeToPart_spec 8 dceW 1 [5, 5, 5] (by decide) (by decide)

/-- Claim C5 counterexample: after `pin`, `unpin`, `unpin`, the entry is
registered with `pinCount = -1 ≠ 0`, yet `tryDelete` removes it — so
"removes if and only if the entry exists and its pinCount == 0" fails on
the code. -/
theorem tryDelete_negative_pincount_cex :
    ((((emptyStore.pinCacheEntry "b" "n").unpinCacheEntry "b" "n").unpinCacheEntry
        "b" "n").Cache ⟨"b", "n"⟩ =
      some ⟨"b", "n", 0, -1, false, none, []⟩) ∧
    ((-1 : Int) ≠ 0) ∧
    (((((emptyStore.pinCacheEntry "b" "n").unpinCacheEntry "b" "n").unpinCacheEntry
        "b" "n").tryDeleteCacheEntry "b" "n").Cache ⟨"b", "n"⟩ = none) := by
  refine ⟨by decide, by decide, by decide⟩

/-- Claim C5 (amended): `tryDelete` removes the entry if and only if it
exists with `pinCount ≤ 0` at the moment of the call (it refuses removal
only while `pinCount > 0`), and is a no-op on the registry otherwise;
`pin` followed by `tryDelete` leaves the entry registered provided the
prior pin count was not negative (or the entry was absent); `unpin` down
to zero followed by `tryDelete` removes the entry. -/
theorem tryDelete_spec (s : BlockStore) (blockId name : String) :
    (s.Cache ⟨blockId, name⟩ = none →
      s.tryDeleteCacheEntry blockId name = s) ∧
    (∀ e, s.Cache ⟨blockId, name⟩ = some e → 0 < e.PinCount →
      s.tryDeleteCacheEntry blockId name = s) ∧
    (∀ e, s.Cache ⟨blockId, name⟩ = some e → e.PinCount ≤ 0 →
      (s.tryDeleteCacheEntry blockId name).Cache ⟨blockId, name⟩ = none ∧
      ∀ k', k' ≠ ⟨blockId, name⟩ →
        (s.tryDeleteCacheEntry blockId name).Cache k' = s.Cache k') ∧
    (s.Cache ⟨blockId, name⟩ = none →
      ((s.pinCacheEntry blockId name).tryDeleteCacheEntry blockId name).Cache
        ⟨blockId, name⟩ ≠ none) ∧
    (∀ e, s.Cache ⟨blockId, name⟩ = some e → 0 ≤ e.PinCount →
      ((s.pinCacheEntry blockId name).tryDeleteCacheEntry blockId name).Cache
        ⟨blockId, name⟩ ≠ none) ∧
    (∀ e, s.Cache ⟨blockId, name⟩ = some e → e.PinCount = 1 →
      ((s.unpinCacheEntry blockId name).tryDeleteCacheEntry blockId name).Cache
        ⟨blockId, name⟩ = none) := by
  refine ⟨?_, ?_, ?_, ?_, ?_, ?_⟩
  · intro h
    simp [BlockStore.tryDeleteCacheEntry, h]
  · intro e he hpin
    simp only [BlockStore.tryDeleteCacheEntry, he]
    rw [if_pos hpin]
  · intro e he hle
    constructor
    · simp only [BlockStore.tryDeleteCacheEntry, he]
      rw [if_neg (by omega)]
      simp
    · intro k' hk'
      simp only [BlockStore.tryDeleteCacheEntry, he]
      rw [if_neg (by omega)]
      simp [hk']
  · intro h
    have hpin : (s.pinCacheEntry blockId name).Cache ⟨blockId, name⟩ =
        some ⟨blockId, name, 0, 1, false, none, []⟩ := by
      simp [BlockStore.pinCacheEntry, h]
    simp only [BlockStore.tryDeleteCacheEntry, hpin]
    rw [if_pos (by decide)]
    simp [hpin]
  · intro e he hge
    have hpin : (s.pinCacheEntry blockId name).Cache ⟨blockId, name⟩ =
        some { e with PinCount := e.PinCount + 1 } := by
      simp [BlockStore.pinCacheEntry, he]
    have hcond : (0 : Int) <
        ({ e with PinCount := e.PinCount + 1 } : CacheEntry).PinCount := by
      show (0 : Int) < e.PinCount + 1
      omega
    simp only [BlockStore.tryDeleteCacheEntry, hpin]
    rw [if_pos hcond]
    simp [hpin]
  · intro e he h1
    have hunpin : (s.unpinCacheEntry blockId name).Cache ⟨blockId, name⟩ =
        some { e with PinCount := e.PinCount - 1 } := by
      simp [BlockStore.unpinCacheEntry, he]
    have hcond : ¬ (0 : Int) <
        ({ e with PinCount := e.PinCount - 1 } : CacheEntry).PinCount := by
      show ¬ (0 : Int) < e.PinCount - 1
      omega
    simp only [BlockStore.tryDeleteCacheEntry, hunpin]
    rw [if_neg hcond]
    simp

/-- Witness for claim C5 (amended): `tryDelete` removes a registered entry
whose pin count is `0`. -/
theorem tryDelete_spec_witness :
    (popStore.tryDeleteCacheEntry "b" "n").Cache ⟨"b", "n"⟩ = none :=
  ((tryDelete_spec popStore "b" "n").2.2.1 popEntry rfl (by decide)).1

/-- Claim C10: `unpin` on an existing entry decrements `pinCount`
unconditionally, so an unbalanced `unpin` at `pinCount = 0` drives it
negative, after which `tryDelete` removes the entry (it refuses only when
`pinCount > 0`); on any single step from a state with `pinCount > 0` —
as maintained by balanced pin/unpin traces — the entry is never
removed. -/
theorem unpin_unbalanced_spec (s : BlockStore) (blockId name : String) :
    (∀ e, s.Cache ⟨blockId, name⟩ = some e →
      (s.unpinCacheEntry blockId name).Cache ⟨blockId, name⟩ =
        some { e with PinCount := e.PinCount - 1 }) ∧
    (∀ e, s.Cache ⟨blockId, name⟩ = some e → e.PinCount = 0 →
      ∃ e', (s.unpinCacheEntry blockId name).Cache ⟨blockId, name⟩ = some e' ∧
        e'.PinCount < 0 ∧
        ((s.unpinCacheEntry blockId name).tryDeleteCacheEntry blockId
            name).Cache ⟨blockId, name⟩ = none) ∧
    (∀ e, s.Cache ⟨blockId, name⟩ = some e → 0 < e.PinCount →
      s.tryDeleteCacheEntry blockId name = s) := by
  refine ⟨?_, ?_, ?_⟩
  · intro e he
    simp [BlockStore.unpinCacheEntry, he]
  · intro e he h0
    have hunpin : (s.unpinCacheEntry blockId name).Cache ⟨blockId, name⟩ =
        some { e with PinCount := e.PinCount - 1 } := by
      simp [BlockStore.unpinCacheEntry, he]
    have hcond : ¬ (0 : Int) <
        ({ e with PinCount := e.PinCount - 1 } : CacheEntry).PinCount := by
      show ¬ (0 : Int) < e.PinCount - 1
      omega
    refine ⟨{ e with PinCount := e.PinCount - 1 }, hunpin, ?_, ?_⟩
    · show e.PinCount - 1 < 0
      omega
    · simp only [BlockStore.tryDeleteCacheEntry, hunpin]
      rw [if_neg hcond]
      simp
  · intro e he hpin
    simp only [BlockStore.tryDeleteCacheEntry, he]
    rw [if_pos hpin]

/-- Witness for claim C10: unpinning the zero-pinned `popEntry` yields its
decremented form. -/
theorem unpin_unbalanced_spec_witness :
    (popStore.unpinCacheEntry "b" "n").Cache ⟨"b", "n"⟩ =
      some { popEntry with PinCount := popEntry.PinCount - 1 } :=
  (unpin_unbalanced_spec popStore "b" "n").1 popEntry rfl

/-! ### `withLockExists` and `getFileFromCache` case equations -/

theorem withLockExists_none {ε : Type} (s : BlockStore) (bid nm : String)
    (f : CacheEntry → CacheEntry × Option ε) (hc : s.Cache ⟨bid, nm⟩ = none) :
    s.withLockExists bid nm f = (s, some WLError.fileNotFound) := by
  simp [BlockStore.withLockExists, hc]

theorem withLockExists_deleted {ε : Type} (s : BlockStore) (bid nm : String)
    (f : CacheEntry → CacheEntry × Option ε) (e : CacheEntry)
    (hc : s.Cache ⟨bid, nm⟩ = some e) (hd : e.Deleted = true) :
    s.withLockExists bid nm f = (s, some WLError.fileNotFound) := by
  simp [BlockStore.withLockExists, hc, hd]

theorem withLockExists_nofile {ε : Type} (s : BlockStore) (bid nm : String)
    (f : CacheEntry → CacheEntry × Option ε) (e : CacheEntry)
    (hc : s.Cache ⟨bid, nm⟩ = some e) (hd : e.Deleted = false)
    (hf : e.FileEntry = none) :
    s.withLockExists bid nm f = (s, some WLError.fileNotFound) := by
  simp [BlockStore.withLockExists, hc, hd, hf]

theorem withLockExists_run {ε : Type} (s : BlockStore) (bid nm : String)
    (f : CacheEntry → CacheEntry × Option ε) (e : CacheEntry)
    (fe : FileCacheEntry) (hc : s.Cache ⟨bid, nm⟩ = some e)
    (hd : e.Deleted = false) (hf : e.FileEntry = some fe) :
    s.withLockExists bid nm f =
      (⟨fun k' => if k' = ⟨bid, nm⟩ then some (f e).1 else s.Cache k'⟩,
       (f e).2.map WLError.fnError) := by
  simp [BlockStore.withLockExists, hc, hd, hf]

theorem getFileFromCache_none (s : BlockStore) (h : List (List Nat))
    (bid nm : String) (hc : s.Cache ⟨bid, nm⟩ = none) :
    s.getFileFromCache h bid nm = (h, none, false) := by
  simp [BlockStore.getFileFromCache, hc]

theorem getFileFromCache_deleted (s : BlockStore) (h : List (List Nat))
    (bid nm : String) (e : CacheEntry) (hc : s.Cache ⟨bid, nm⟩ = some e)
    (hd : e.Deleted = true) :
    s.getFileFromCache h bid nm = (h, none, true) := by
  simp [BlockStore.getFileFromCache, hc, hd]

theorem getFileFromCache_nofile (s : BlockStore) (h : List (List Nat))
    (bid nm : String) (e : CacheEntry) (hc : s.Cache ⟨bid, nm⟩ = some e)
    (hd : e.Deleted = false) (hf : e.FileEntry = none) :
    s.getFileFromCache h bid nm = (h, none, false) := by
  simp [BlockStore.getFileFromCache, hc, hd, hf]

theorem getFileFromCache_hit (s : BlockStore) (h : List (List Nat))
    (bid nm : String) (e : CacheEntry) (fe : FileCacheEntry)
    (hc : s.Cache ⟨bid, nm⟩ = some e) (hd : e.Deleted = false)
    (hf : e.FileEntry = some fe) :
    s.getFileFromCache h bid nm =
      (h ++ [heapRead h fe.File.Meta],
       some ⟨fe.File.Opts, h.length⟩, true) := by
  simp [BlockStore.getFileFromCache, hc, hd, hf, BlockFile.DeepCopy, heapAlloc]

theorem heapRead_append_self (h : List (List Nat)) (v : List Nat) :
    heapRead (h ++ [v]) h.length = v := by
  unfold heapRead
  rw [getAt_append]
  simp [getAt]

theorem heapRead_write_ne (h : List (List Nat)) (a a' : Nat) (v : List Nat)
    (hne : a ≠ a') : heapRead (heapWrite h a v) a' = heapRead h a' := by
  unfold heapRead heapWrite
  rw [getAt_set_ne hne]

/-- Claim C6: `withLockExists` yields the "file not found" error exactly
when the key is unregistered, the entry is marked deleted, or the entry
has no `FileEntry`; in that case the registry is returned unchanged.
Otherwise it invokes `fn` on the entry, installs `fn`'s entry update, and
returns `fn`'s result (tagged apart from the lookup failure — the lookup
failure is the only error the store's operations produce themselves). -/
theorem withLockExists_spec {ε : Type} (s : BlockStore) (blockId name : String)
    (f : CacheEntry → CacheEntry × Option ε) :
    ((s.withLockExists blockId name f).2 = some WLError.fileNotFound ↔
      (s.Cache ⟨blockId, name⟩ = none ∨
       ∃ e, s.Cache ⟨blockId, name⟩ = some e ∧
         (e.Deleted = true ∨ e.FileEntry = none))) ∧
    ((s.withLockExists blockId name f).2 = some WLError.fileNotFound →
      (s.withLockExists blockId name f).1 = s) ∧
    (∀ e fe, s.Cache ⟨blockId, name⟩ = some e → e.Deleted = false →
      e.FileEntry = some fe →
      s.withLockExists blockId name f =
        (⟨fun k' => if k' = ⟨blockId, name⟩ then some (f e).1 else s.Cache k'⟩,
         (f e).2.map WLError.fnError)) := by
  refine ⟨⟨?_, ?_⟩, ?_, ?_⟩
  · intro hnf
    cases hc : s.Cache ⟨blockId, name⟩ with
    | none => exact Or.inl rfl
    | some e =>
      refine Or.inr ⟨e, rfl, ?_⟩
      cases hd : e.Deleted with
      | true => exact Or.inl rfl
      | false =>
        cases hfe : e.FileEntry with
        | none => exact Or.inr rfl
        | some fe =>
          rw [withLockExists_run s blockId name f e fe hc hd hfe] at hnf
          cases hr : (f e).2 with
          | none =>
            rw [hr] at hnf
            exact absurd hnf (by simp)
          | some err =>
            rw [hr] at hnf
            exact absurd hnf (by simp)
  · intro hor
    rcases hor with hc | ⟨e, hc, hor2⟩
    · rw [withLockExists_none s blockId name f hc]
    · rcases hor2 with hd | hfe
      · rw [withLockExists_deleted s blockId name f e hc hd]
      · cases hdel : e.Deleted with
        | true => rw [withLockExists_deleted s blockId name f e hc hdel]
        | false => rw [withLockExists_nofile s blockId name f e hc hdel hfe]
  · intro hnf
    cases hc : s.Cache ⟨blockId, name⟩ with
    | none => rw [withLockExists_none s blockId name f hc]
    | some e =>
      cases hdel : e.Deleted with
      | true => rw [withLockExists_deleted s blockId name f e hc hdel]
      | false =>
        cases hfe : e.FileEntry with
        | none => rw [withLockExists_nofile s blockId name f e hc hdel hfe]
        | some fe =>
          rw [withLockExists_run s blockId name f e fe hc hdel hfe] at hnf
          cases hr : (f e).2 with
          | none =>
            rw [hr] at hnf
            exact absurd hnf (by simp)
          | some err =>
            rw [hr] at hnf
            exact absurd hnf (by simp)
  · intro e fe hc hd hf
    exact withLockExists_run s blockId name f e fe hc hd hf

/-- Witness for claim C6: the empty store reports "file not found" and is
returned unchanged. -/
theorem withLockExists_spec_witness :
    (emptyStore.withLockExists "b" "n" (fun e => (e, (none : Option Unit)))).2 =
      some WLError.fileNotFound ∧
    (emptyStore.withLockExists "b" "n" (fun e => (e, (none : Option Unit)))).1 =
      emptyStore := by
  have h := withLockExists_spec emptyStore "b" "n"
    (fun e => (e, (none : Option Unit)))
  have h2 : (emptyStore.withLockExists "b" "n"
      (fun e => (e, (none : Option Unit)))).2 = some WLError.fileNotFound :=
    h.1.mpr (Or.inl rfl)
  exact ⟨h2, h.2.1 h2⟩

/-- Claim C7: `getFileFromCache` returns `(nil, false)` for an unknown
key, `(nil, true)` for a tombstoned entry, `(nil, false)` for an entry
with no `FileEntry`, and otherwise `(deep copy, true)`; the copy carries
the stored descriptor's options, its metadata cell holds the same value as
the stored descriptor's, and — at a fresh address distinct from the stored
one — any subsequent mutation of the cached descriptor's cell leaves the
returned copy's cell unchanged. -/
theorem getFileFromCache_spec (s : BlockStore) (h : List (List Nat))
    (blockId name : String) :
    (s.Cache ⟨blockId, name⟩ = none →
      s.getFileFromCache h blockId name = (h, none, false)) ∧
    (∀ e, s.Cache ⟨blockId, name⟩ = some e → e.Deleted = true →
      s.getFileFromCache h blockId name = (h, none, true)) ∧
    (∀ e, s.Cache ⟨blockId, name⟩ = some e → e.Deleted = false →
      e.FileEntry = none →
      s.getFileFromCache h blockId name = (h, none, false)) ∧
    (∀ e fe, s.Cache ⟨blockId, name⟩ = some e → e.Deleted = false →
      e.FileEntry = some fe →
      (s.getFileFromCache h blockId name).2.2 = true ∧
      ∃ fcopy, (s.getFileFromCache h blockId name).2.1 = some fcopy ∧
        fcopy.Opts = fe.File.Opts ∧
        heapRead (s.getFileFromCache h blockId name).1 fcopy.Meta =
          heapRead h fe.File.Meta ∧
        (fe.File.Meta < h.length →
          fcopy.Meta ≠ fe.File.Meta ∧
          ∀ v, heapRead (heapWrite (s.getFileFromCache h blockId name).1
              fe.File.Meta v) fcopy.Meta =
            heapRead (s.getFileFromCache h blockId name).1 fcopy.Meta)) := by
  refine ⟨?_, ?_, ?_, ?_⟩
  · intro hc
    exact getFileFromCache_none s h blockId name hc
  · intro e hc hd
    exact getFileFromCache_deleted s h blockId name e hc hd
  · intro e hc hd hf
    exact getFileFromCache_nofile s h blockId name e hc hd hf
  · intro e fe hc hd hf
    rw [getFileFromCache_hit s h blockId name e fe hc hd hf]
    refine ⟨rfl, ⟨fe.File.Opts, h.length⟩, rfl, rfl,
      heapRead_append_self h (heapRead h fe.File.Meta), ?_⟩
    intro hlt
    refine ⟨?_, ?_⟩
    · show h.length ≠ fe.File.Meta
      omega
    · intro v
      exact heapRead_write_ne _ fe.File.Meta h.length v (by omega)

/-- Witness for claim C7: copy-out from `popStore` over a one-cell heap;
the copy lives at the fresh address `1`, and writing the stored cell `0`
does not change it. -/
theorem getFileFromCache_spec_witness :
    (popStore.getFileFromCache [[1, 2]] "b" "n").2.2 = true ∧
      ∃ fcopy, (popStore.getFileFromCache [[1, 2]] "b" "n").2.1 = some fcopy ∧
        fcopy.Opts = popFe.File.Opts ∧
        heapRead (popStore.getFileFromCache [[1, 2]] "b" "n").1 fcopy.Meta =
          heapRead [[1, 2]] popFe.File.Meta ∧
        (popFe.File.Meta < [[1, 2]].length →
          fcopy.Meta ≠ popFe.File.Meta ∧
          ∀ v, heapRead (heapWrite (popStore.getFileFromCache [[1, 2]] "b"
              "n").1 popFe.File.Meta v) fcopy.Meta =
            heapRead (popStore.getFileFromCache [[1, 2]] "b" "n").1
              fcopy.Meta) :=
  (getFileFromCache_spec popStore [[1, 2]] "b" "n").2.2.2 popEntry popFe rfl
    rfl rfl

end Blockstore
